import Mathlib

/-!
Verification of the similarity-cache engine of this repository
(`DatabaseManager` in the database module, schema in `schema.sql`).

The JavaScript source is shallowly embedded: the sqlite tables become
lists of records, callbacks become explicit state passing, JS numbers
used for keyword weights and similarity scores become `ℚ`, timestamps
become `Int`, and the per-statement failure modes of the keyword
insertion phase become an explicit failure oracle.  Unused columns of
the schema (`similarity_score`, `updated_at`) are not modelled; no
claim mentions them.
-/

namespace ElectroBot

/-! ## Normalizer / Tokenizer

The repository delegates tokenization and stemming to the `natural`
npm package (`new natural.WordTokenizer()`, `natural.PorterStemmer`),
whose source is not part of this repository.  Those two functions are
modelled from the spec (§4.1): a word tokenizer that splits text into
maximal runs of word characters (UTF-8, any language tokens) and the
deterministic rule-based Porter stemming algorithm. -/

/-- A word character: ASCII letters, digits, underscore, and Cyrillic
letters (the repository's queries and stop words are Russian). -/
def wordChar (c : Char) : Bool :=
  ('a' ≤ c && c ≤ 'z') || ('A' ≤ c && c ≤ 'Z') || ('0' ≤ c && c ≤ '9') || c = '_' ||
  ('А' ≤ c && c ≤ 'я') || c = 'Ё' || c = 'ё'

/-- Embedding of JavaScript `String.prototype.toLowerCase` on the
character ranges that occur here (ASCII and Cyrillic). -/
def lowerChar (c : Char) : Char :=
  if 'A' ≤ c && c ≤ 'Z' then Char.ofNat (c.toNat + 32)
  else if 'А' ≤ c && c ≤ 'Я' then Char.ofNat (c.toNat + 32)
  else if c = 'Ё' then 'ё'
  else c

/-- JavaScript `toLowerCase` lifted to strings. -/
def jsToLower (s : String) : String := String.mk (s.toList.map lowerChar)

/-- Whitespace characters removed by JavaScript `String.prototype.trim`. -/
def isWsChar (c : Char) : Bool :=
  c = ' ' || c = '\t' || c = '\n' || c = '\r' || c = '\x0b' || c = '\x0c'

/-- Embedding of JavaScript `String.prototype.trim`. -/
def jsTrim (s : String) : String :=
  String.mk (((s.toList.dropWhile isWsChar).reverse.dropWhile isWsChar).reverse)

/-- Modelled from the spec: `natural.WordTokenizer` (source not in `src/`);
§4.1 — splits arbitrary text into an ordered sequence of word tokens,
discarding whitespace and punctuation.  `acc` accumulates the current
token in reverse. -/
def tokenizeAux : List Char → List Char → List (List Char)
  | [], acc => if acc.isEmpty then [] else [acc.reverse]
  | c :: cs, acc =>
    if wordChar c then tokenizeAux cs (c :: acc)
    else if acc.isEmpty then tokenizeAux cs [] else acc.reverse :: tokenizeAux cs []

def tokenizeChars (l : List Char) : List (List Char) := tokenizeAux l []

/-- The word tokenizer on strings. -/
def tokenize (s : String) : List String := (tokenizeChars s.toList).map String.mk

/-- The fixed stop-word set of `extractKeywords` (verbatim from the source). -/
def stopWords : List String :=
  ["и", "в", "на", "с", "по", "для", "от", "до", "как", "что", "это", "или",
   "но", "а", "же", "уже", "еще", "только", "даже", "может", "быть", "все",
   "всего", "при", "через", "над", "под", "без", "из", "к", "о", "об", "про",
   "за", "перед", "после", "между", "среди"]

/-! ### Porter stemmer

Modelled from the spec: `natural.PorterStemmer` (source not in `src/`);
§4.1 — "stemming applied via a deterministic rule-based algorithm
(e.g., Porter-style)".  This is the standard Porter (1980) algorithm
over lists of characters. -/

/-- Shorthand: the character list of a string literal (used for suffixes). -/
def cl (s : String) : List Char := s.toList

def vowelLetter (c : Char) : Bool :=
  c = 'a' || c = 'e' || c = 'i' || c = 'o' || c = 'u'

/-- Consonant mask of a word: position `i` is `true` iff the `i`-th letter is
a consonant in Porter's sense (not a,e,i,o,u, and `y` only when not preceded
by a consonant).  The accumulator records whether the previous letter was a
consonant. -/
def consMask : Bool → List Char → List Bool
  | _, [] => []
  | prevCons, c :: cs =>
    let isC := if vowelLetter c then false else if c = 'y' then !prevCons else true
    isC :: consMask isC cs

/-- Adjacent vowel-to-consonant transitions, given the previous mask
entry. -/
def countVCFrom (prev : Bool) : List Bool → Nat
  | [] => 0
  | b :: rest => (if !prev && b then 1 else 0) + countVCFrom b rest

/-- Number of vowel-to-consonant transitions in a mask: the Porter measure
`m` of a word of form `[C](VC)^m[V]`. -/
def countVC : List Bool → Nat
  | [] => 0
  | b :: rest => countVCFrom b rest

/-- Porter measure of a word. -/
def measureOf (w : List Char) : Nat := countVC (consMask false w)

/-- `*v*`: the word contains a vowel. -/
def hasVowel (w : List Char) : Bool := (consMask false w).any (fun b => !b)

/-- `*d`: the word ends in a double consonant. -/
def endsDouble (w : List Char) : Bool :=
  match w.reverse, (consMask false w).getLast? with
  | c1 :: c2 :: _, some true => c1 = c2
  | _, _ => false

/-- `*o`: the word ends consonant-vowel-consonant where the final consonant
is not `w`, `x` or `y`. -/
def endsCVC (w : List Char) : Bool :=
  match (consMask false w).reverse, w.reverse with
  | c1 :: v :: c2 :: _, lc :: _ => c1 && !v && c2 && !(lc = 'w' || lc = 'x' || lc = 'y')
  | _, _ => false

def endsWith (w suf : List Char) : Bool := suf.isSuffixOf w

def chopSuffix (w suf : List Char) : List Char := w.take (w.length - suf.length)

/-- One Porter rewrite rule: a suffix, a condition on the stem, a replacement. -/
structure PRule where
  suffix : List Char
  cond : List Char → Bool
  rep : List Char

/-- Apply the first rule whose suffix matches (rules are listed with longer
suffixes first, giving Porter's longest-match semantics); if its condition
fails the word is left unchanged, as in the paper. -/
def applyRules (rules : List PRule) (w : List Char) : List Char :=
  match rules with
  | [] => w
  | r :: rest =>
    if endsWith w r.suffix then
      let st := chopSuffix w r.suffix
      if r.cond st then st ++ r.rep else w
    else applyRules rest w

def mPos (w : List Char) : Bool := decide (0 < measureOf w)

def mGt1 (w : List Char) : Bool := decide (1 < measureOf w)

def alwaysTrue (_ : List Char) : Bool := true

def step1a (w : List Char) : List Char :=
  applyRules
    [⟨cl "sses", alwaysTrue, cl "ss"⟩,
     ⟨cl "ies", alwaysTrue, cl "i"⟩,
     ⟨cl "ss", alwaysTrue, cl "ss"⟩,
     ⟨cl "s", alwaysTrue, []⟩] w

/-- The cleanup applied after `-ed`/`-ing` removal in step 1b. -/
def step1b2 (w : List Char) : List Char :=
  if endsWith w (cl "at") || endsWith w (cl "bl") || endsWith w (cl "iz") then w ++ cl "e"
  else if endsDouble w && !(endsWith w (cl "l") || endsWith w (cl "s") || endsWith w (cl "z")) then
    w.dropLast
  else if measureOf w = 1 && endsCVC w then w ++ cl "e"
  else w

def step1b (w : List Char) : List Char :=
  if endsWith w (cl "eed") then
    if 0 < measureOf (chopSuffix w (cl "eed")) then chopSuffix w (cl "d") else w
  else if endsWith w (cl "ed") && hasVowel (chopSuffix w (cl "ed")) then
    step1b2 (chopSuffix w (cl "ed"))
  else if endsWith w (cl "ing") && hasVowel (chopSuffix w (cl "ing")) then
    step1b2 (chopSuffix w (cl "ing"))
  else w

def step1c (w : List Char) : List Char :=
  if endsWith w (cl "y") && hasVowel (chopSuffix w (cl "y")) then
    chopSuffix w (cl "y") ++ cl "i"
  else w

def step2 (w : List Char) : List Char :=
  applyRules
    [⟨cl "ization", mPos, cl "ize"⟩,
     ⟨cl "iveness", mPos, cl "ive"⟩,
     ⟨cl "fulness", mPos, cl "ful"⟩,
     ⟨cl "ousness", mPos, cl "ous"⟩,
     ⟨cl "ational", mPos, cl "ate"⟩,
     ⟨cl "tional", mPos, cl "tion"⟩,
     ⟨cl "biliti", mPos, cl "ble"⟩,
     ⟨cl "ation", mPos, cl "ate"⟩,
     ⟨cl "alism", mPos, cl "al"⟩,
     ⟨cl "aliti", mPos, cl "al"⟩,
     ⟨cl "ousli", mPos, cl "ous"⟩,
     ⟨cl "entli", mPos, cl "ent"⟩,
     ⟨cl "iviti", mPos, cl "ive"⟩,
     ⟨cl "enci", mPos, cl "ence"⟩,
     ⟨cl "anci", mPos, cl "ance"⟩,
     ⟨cl "izer", mPos, cl "ize"⟩,
     ⟨cl "abli", mPos, cl "able"⟩,
     ⟨cl "alli", mPos, cl "al"⟩,
     ⟨cl "ator", mPos, cl "ate"⟩,
     ⟨cl "eli", mPos, cl "e"⟩] w

def step3 (w : List Char) : List Char :=
  applyRules
    [⟨cl "icate", mPos, cl "ic"⟩,
     ⟨cl "ative", mPos, []⟩,
     ⟨cl "alize", mPos, cl "al"⟩,
     ⟨cl "iciti", mPos, cl "ic"⟩,
     ⟨cl "ical", mPos, cl "ic"⟩,
     ⟨cl "ness", mPos, []⟩,
     ⟨cl "ful", mPos, []⟩] w

def step4 (w : List Char) : List Char :=
  applyRules
    [⟨cl "ement", mGt1, []⟩,
     ⟨cl "ance", mGt1, []⟩,
     ⟨cl "ence", mGt1, []⟩,
     ⟨cl "able", mGt1, []⟩,
     ⟨cl "ible", mGt1, []⟩,
     ⟨cl "ment", mGt1, []⟩,
     ⟨cl "ant", mGt1, []⟩,
     ⟨cl "ent", mGt1, []⟩,
     ⟨cl "ion", fun st => mGt1 st && (endsWith st (cl "s") || endsWith st (cl "t")), []⟩,
     ⟨cl "ism", mGt1, []⟩,
     ⟨cl "ate", mGt1, []⟩,
     ⟨cl "iti", mGt1, []⟩,
     ⟨cl "ous", mGt1, []⟩,
     ⟨cl "ive", mGt1, []⟩,
     ⟨cl "ize", mGt1, []⟩,
     ⟨cl "al", mGt1, []⟩,
     ⟨cl "er", mGt1, []⟩,
     ⟨cl "ic", mGt1, []⟩,
     ⟨cl "ou", mGt1, []⟩] w

def step5a (w : List Char) : List Char :=
  if endsWith w (cl "e") then
    let st := chopSuffix w (cl "e")
    if mGt1 st || (measureOf st = 1 && !endsCVC st) then st else w
  else w

def step5b (w : List Char) : List Char :=
  if mGt1 w && endsDouble w && endsWith w (cl "l") then w.dropLast else w

/-- The Porter stemmer on character lists; words of length at most 2 are
left unchanged, as in the original algorithm. -/
def porterList (w : List Char) : List Char :=
  if w.length ≤ 2 then w
  else step5b (step5a (step4 (step3 (step2 (step1c (step1b (step1a w)))))))

/-- `natural.PorterStemmer.stem` on strings. -/
def porterStem (s : String) : String := String.mk (porterList s.toList)

/-- Embedding of `extractKeywords` (database module): lower-case, tokenize,
drop short tokens and stop words, stem, drop short stems. -/
def extractKeywords (text : String) : List String :=
  let words := tokenize (jsToLower text)
  ((words.filter
      (fun word => decide (2 < word.length) && !(stopWords.contains word))).map
    porterStem).filter (fun word => decide (2 < word.length))

/-! ## Fingerprint generator

`generateQueryHash` computes `crypto.createHash('md5')` of the
lower-cased, trimmed query.  The MD5 algorithm itself lives in Node's
`crypto` module; it is embedded here in full (RFC 1321) over `Nat`
bytes, with arithmetic taken modulo `2^32` explicitly. -/

/-- UTF-8 bytes of a character. -/
def utf8Bytes (c : Char) : List Nat :=
  let n := c.toNat
  if n < 128 then [n]
  else if n < 2048 then [192 + n / 64, 128 + n % 64]
  else if n < 65536 then [224 + n / 4096, 128 + (n / 64) % 64, 128 + n % 64]
  else [240 + n / 262144, 128 + (n / 4096) % 64, 128 + (n / 64) % 64, 128 + n % 64]

/-- UTF-8 bytes of a string (what `hash.update(str)` consumes). -/
def strBytes (s : String) : List Nat := s.toList.flatMap utf8Bytes

/-- Truncation to a 32-bit word. -/
def w32 (n : Nat) : Nat := n % 4294967296

/-- Left rotation of a 32-bit word. -/
def rotl (x s : Nat) : Nat := (x % 2 ^ (32 - s)) * 2 ^ s + x / 2 ^ (32 - s)

/-- Bitwise complement of a 32-bit word. -/
def compl32 (x : Nat) : Nat := 4294967295 - x

/-- The 64 MD5 sine constants. -/
def md5T : List Nat :=
  [0xd76aa478, 0xe8c7b756, 0x242070db, 0xc1bdceee,
   0xf57c0faf, 0x4787c62a, 0xa8304613, 0xfd469501,
   0x698098d8, 0x8b44f7af, 0xffff5bb1, 0x895cd7be,
   0x6b901122, 0xfd987193, 0xa679438e, 0x49b40821,
   0xf61e2562, 0xc040b340, 0x265e5a51, 0xe9b6c7aa,
   0xd62f105d, 0x02441453, 0xd8a1e681, 0xe7d3fbc8,
   0x21e1cde6, 0xc33707d6, 0xf4d50d87, 0x455a14ed,
   0xa9e3e905, 0xfcefa3f8, 0x676f02d9, 0x8d2a4c8a,
   0xfffa3942, 0x8771f681, 0x6d9d6122, 0xfde5380c,
   0xa4beea44, 0x4bdecfa9, 0xf6bb4b60, 0xbebfbc70,
   0x289b7ec6, 0xeaa127fa, 0xd4ef3085, 0x04881d05,
   0xd9d4d039, 0xe6db99e5, 0x1fa27cf8, 0xc4ac5665,
   0xf4292244, 0x432aff97, 0xab9423a7, 0xfc93a039,
   0x655b59c3, 0x8f0ccc92, 0xffeff47d, 0x85845dd1,
   0x6fa87e4f, 0xfe2ce6e0, 0xa3014314, 0x4e0811a1,
   0xf7537e82, 0xbd3af235, 0x2ad7d2bb, 0xeb86d391]

/-- Per-round left-rotation amounts. -/
def md5S : List Nat :=
  [7, 12, 17, 22, 7, 12, 17, 22, 7, 12, 17, 22, 7, 12, 17, 22,
   5, 9, 14, 20, 5, 9, 14, 20, 5, 9, 14, 20, 5, 9, 14, 20,
   4, 11, 16, 23, 4, 11, 16, 23, 4, 11, 16, 23, 4, 11, 16, 23,
   6, 10, 15, 21, 6, 10, 15, 21, 6, 10, 15, 21, 6, 10, 15, 21]

/-- Round function `F`/`G`/`H`/`I` selected by round index. -/
def md5F (i b c d : Nat) : Nat :=
  if i < 16 then Nat.lor (Nat.land b c) (Nat.land (compl32 b) d)
  else if i < 32 then Nat.lor (Nat.land b d) (Nat.land c (compl32 d))
  else if i < 48 then Nat.xor (Nat.xor b c) d
  else Nat.xor c (Nat.lor b (compl32 d))

/-- Message-word index used in round `i`. -/
def md5G (i : Nat) : Nat :=
  if i < 16 then i
  else if i < 32 then (5 * i + 1) % 16
  else if i < 48 then (3 * i + 5) % 16
  else (7 * i) % 16

/-- MD5 padding: append `0x80`, zeros to 56 mod 64, then the bit length
as 8 little-endian bytes. -/
def md5Pad (msg : List Nat) : List Nat :=
  let len := msg.length
  let z := (120 - (len + 1) % 64) % 64
  let bitLen := (8 * len) % 2 ^ 64
  msg ++ [128] ++ List.replicate z 0 ++
    (List.range 8).map (fun k => bitLen / 2 ^ (8 * k) % 256)

/-- Little-endian 4-byte groups to 32-bit words. -/
def toWords : List Nat → List Nat
  | b0 :: b1 :: b2 :: b3 :: rest =>
    (b0 + 256 * b1 + 65536 * b2 + 16777216 * b3) :: toWords rest
  | _ => []

/-- Split a word list into 16-word blocks (a padded message is always a
multiple of 16 words; the ragged fallback is unreachable there). -/
def blocks16 : List Nat → List (List Nat)
  | [] => []
  | x0 :: x1 :: x2 :: x3 :: x4 :: x5 :: x6 :: x7 ::
      x8 :: x9 :: x10 :: x11 :: x12 :: x13 :: x14 :: x15 :: rest =>
    [x0, x1, x2, x3, x4, x5, x6, x7, x8, x9, x10, x11, x12, x13, x14, x15] ::
      blocks16 rest
  | l => [l]

/-- One MD5 round step on the running state `(a, b, c, d)`. -/
def md5Step (M : List Nat) (st : Nat × Nat × Nat × Nat) (i : Nat) :
    Nat × Nat × Nat × Nat :=
  let (a, b, c, d) := st
  let f := w32 (a + md5F i b c d + M.getD (md5G i) 0 + md5T.getD i 0)
  (d, w32 (b + rotl f (md5S.getD i 0)), b, c)

/-- Process one 16-word block. -/
def md5Block (st : Nat × Nat × Nat × Nat) (M : List Nat) :
    Nat × Nat × Nat × Nat :=
  let (a0, b0, c0, d0) := st
  let (a, b, c, d) := (List.range 64).foldl (md5Step M) st
  (w32 (a0 + a), w32 (b0 + b), w32 (c0 + c), w32 (d0 + d))

/-- Little-endian serialization of a 32-bit word. -/
def wordLE (x : Nat) : List Nat :=
  [x % 256, x / 256 % 256, x / 65536 % 256, x / 16777216 % 256]

/-- The 16 digest bytes of a byte message. -/
def md5Bytes (msg : List Nat) : List Nat :=
  let st := (blocks16 (toWords (md5Pad msg))).foldl md5Block
    (0x67452301, 0xefcdab89, 0x98badcfe, 0x10325476)
  wordLE st.1 ++ wordLE st.2.1 ++ wordLE st.2.2.1 ++ wordLE st.2.2.2

/-- Lower-case hex digit. -/
def hexDigit (n : Nat) : Char :=
  if n < 10 then Char.ofNat (48 + n) else Char.ofNat (87 + n)

/-- Two hex digits of a byte. -/
def hexByte (b : Nat) : List Char := [hexDigit (b / 16), hexDigit (b % 16)]

/-- Hex digest string of a byte message. -/
def md5Hex (msg : List Nat) : String := String.mk (msg.flatMap hexByte)

/-- Embedding of `generateQueryHash` (database module):
`crypto.createHash('md5').update(query.toLowerCase().trim()).digest('hex')`. -/
def generateQueryHash (query : String) : String :=
  md5Hex (md5Bytes (strBytes (jsTrim (jsToLower query))))

/-! ## Data model

The three sqlite tables of `schema.sql` as lists of records, in rowid
(insertion) order.  The unused `similarity_score` column and the
trigger-maintained `updated_at` are not modelled; `usage_stats` rows
carry only the conversation id (the code inserts only that column). -/

structure Conversation where
  id : String
  user_query : String
  ai_response : String
  query_hash : String
  user_id : Option String
  session_id : Option String
  metadata : String
  usage_count : Nat
  created_at : Int
deriving DecidableEq, Repr

structure KeywordRow where
  conversation_id : String
  keyword : String
  weight : ℚ
deriving DecidableEq, Repr

structure DBState where
  conversations : List Conversation
  keywords : List KeywordRow
  usage_stats : List String
deriving DecidableEq, Repr

def emptyDB : DBState := ⟨[], [], []⟩

inductive SaveError where
  | insertFailed
deriving DecidableEq, Repr

/-- `INSERT OR REPLACE INTO conversations`: sqlite deletes every existing
row that conflicts with the new one on a uniqueness constraint (`id` is
the PRIMARY KEY, `query_hash` is UNIQUE), then inserts the new row;
`usage_count` is written as the literal `1`. -/
def upsertConversation (st : DBState) (c : Conversation) : DBState :=
  { st with conversations :=
      st.conversations.filter (fun r => !(r.id == c.id || r.query_hash == c.query_hash)) ++ [c] }

/-- Embedding of `saveConversation`.  `newId` stands for the fresh
`uuid.v4()`, `now` for `CURRENT_TIMESTAMP`.  `convFail` makes the
conversation `INSERT` fail, upon which the code rolls back and rejects.
`kwFail k` makes the `INSERT` of the `k`-th keyword fail: the code only
logs such a failure (its completion counter still advances) and runs
`COMMIT` once all keyword callbacks have completed, so a failed keyword
row is simply missing from the committed state.  When the keyword list
is empty the code commits immediately; the resulting state is the same
formula with no keyword rows appended. -/
def saveConversation (st : DBState) (newId : String) (now : Int)
    (userQuery aiResponse : String) (userId sessionId : Option String)
    (metadata : String) (convFail : Bool) (kwFail : Nat → Bool) :
    Except SaveError String × DBState :=
  let queryHash := generateQueryHash userQuery
  let keywords := extractKeywords userQuery
  if convFail then (.error .insertFailed, st)
  else
    let st1 := upsertConversation st
      ⟨newId, userQuery, aiResponse, queryHash, userId, sessionId, metadata, 1, now⟩
    let inserted := keywords.enum.filterMap fun p =>
      if kwFail p.1 then none
      else some (⟨newId, p.2, 1 - (p.1 : ℚ) * (1 / 10)⟩ : KeywordRow)
    (.ok newId, { st1 with keywords := st1.keywords ++ inserted })

/-- Embedding of `updateUsageCount`: increment `usage_count` of the row
with the given id and append a `usage_stats` row. -/
def updateUsageCount (st : DBState) (conversationId : String) : DBState :=
  { st with
      conversations := st.conversations.map fun c =>
        if c.id == conversationId then { c with usage_count := c.usage_count + 1 } else c,
      usage_stats := st.usage_stats ++ [conversationId] }

/-- A row returned by `findSimilarConversations`.  The similar-match SQL
also selects `SUM(k.weight)` and `COUNT(k.keyword)` columns; they are
not carried here since no claim mentions them. -/
structure FindRow where
  conv : Conversation
  similarity : ℚ
  matchType : String
deriving DecidableEq, Repr

/-- `SUM(k.weight)` over the keyword rows of conversation `cid` whose
keyword is among the query keywords (`WHERE k.keyword IN (...)`,
`GROUP BY c.id`). -/
def matchingWeight (st : DBState) (qks : List String) (cid : String) : ℚ :=
  ((st.keywords.filter fun k => k.conversation_id == cid && qks.contains k.keyword).map
    KeywordRow.weight).sum

/-- Whether conversation `cid` has at least one keyword row matching the
query keywords (membership in the `JOIN`). -/
def hasMatch (st : DBState) (qks : List String) (cid : String) : Bool :=
  st.keywords.any fun k => k.conversation_id == cid && qks.contains k.keyword

/-- `ORDER BY similarity DESC, c.usage_count DESC` as a total preorder:
`rankRel a b` says `a` sorts no later than `b`. -/
def rankRel (a b : FindRow) : Prop :=
  b.similarity < a.similarity ∨
    (b.similarity = a.similarity ∧ b.conv.usage_count ≤ a.conv.usage_count)

instance : DecidableRel rankRel := fun a b => by unfold rankRel; infer_instance

instance : IsTotal FindRow rankRel where
  total a b := by
    rcases lt_trichotomy a.similarity b.similarity with h | h | h
    · exact Or.inr (Or.inl h)
    · rcases Nat.le_total b.conv.usage_count a.conv.usage_count with hu | hu
      · exact Or.inl (Or.inr ⟨h.symm, hu⟩)
      · exact Or.inr (Or.inr ⟨h, hu⟩)
    · exact Or.inl (Or.inl h)

instance : IsTrans FindRow rankRel where
  trans a b c hab hbc := by
    rcases hab with h1 | ⟨h1, hu1⟩ <;> rcases hbc with h2 | ⟨h2, hu2⟩
    · exact Or.inl (h2.trans h1)
    · exact Or.inl (lt_of_eq_of_lt h2 h1)
    · exact Or.inl (lt_of_lt_of_eq h2 h1)
    · exact Or.inr ⟨h2.trans h1, hu2.trans hu1⟩

/-- Embedding of `findSimilarConversations`.  `db.get` returns the first
row whose `query_hash` matches; an exact match short-circuits the
keyword search, records a hit, and is returned alone with similarity 1
and matchType `exact`.  Otherwise the keyword SQL joins the two tables,
groups by conversation id, computes
`similarity = SUM(k.weight) / queryKeywords.length`, keeps rows with
`HAVING similarity >= minSimilarity`, orders by similarity then
usage_count descending, truncates to `limit`, and records a usage hit
for every returned row. -/
def findSimilarConversations (st : DBState) (query : String) (limit : Nat)
    (minSimilarity : ℚ) : List FindRow × DBState :=
  let queryKeywords := extractKeywords query
  let queryHash := generateQueryHash query
  match st.conversations.find? (fun c => c.query_hash == queryHash) with
  | some exactMatch =>
    ([⟨exactMatch, 1, "exact"⟩], updateUsageCount st exactMatch.id)
  | none =>
    if queryKeywords.length = 0 then ([], st)
    else
      let rows := (st.conversations.filter fun c => hasMatch st queryKeywords c.id).map
        fun c =>
          (⟨c, matchingWeight st queryKeywords c.id / (queryKeywords.length : ℚ),
            "similar"⟩ : FindRow)
      let kept := rows.filter fun r => decide (minSimilarity ≤ r.similarity)
      let limited := (List.insertionSort rankRel kept).take limit
      (limited, limited.foldl (fun s r => updateUsageCount s r.conv.id) st)

/-- Embedding of `cleanupOldRecords`: one `DELETE` of the conversations
with `created_at < cutoffDate AND usage_count < 2`, returning
`this.changes` (the number of deleted rows).  `cutoffDate` is `now`
minus `daysOld` days; timestamps are modelled in days. -/
def cleanupOldRecords (st : DBState) (now : Int) (daysOld : Nat) : Nat × DBState :=
  let cutoffDate : Int := now - (daysOld : Int)
  ((st.conversations.filter fun c =>
      decide (c.created_at < cutoffDate) && decide (c.usage_count < 2)).length,
   { st with conversations := st.conversations.filter fun c =>
      !(decide (c.created_at < cutoffDate) && decide (c.usage_count < 2)) })

/-- Modelled from the spec: `Purge(maxAgeDays, minUsageThreshold)` as the
spec words it — "deletes conversations older than the cutoff AND with
usage_count below the threshold", the threshold being caller-supplied.
This definition exists only to compare the claimed semantics with the
source's `cleanupOldRecords`, which has no threshold parameter. -/
def purgeClaim (st : DBState) (now : Int) (maxAgeDays minUsageThreshold : Nat) :
    Nat × DBState :=
  let cutoffDate : Int := now - (maxAgeDays : Int)
  ((st.conversations.filter fun c =>
      decide (c.created_at < cutoffDate) && decide (c.usage_count < minUsageThreshold)).length,
   { st with conversations := st.conversations.filter fun c =>
      !(decide (c.created_at < cutoffDate) && decide (c.usage_count < minUsageThreshold)) })

/-- One save request: the caller-supplied arguments together with the
model parameters (fresh uuid, current time, failure oracles). -/
structure SaveOp where
  newId : String
  now : Int
  userQuery : String
  aiResponse : String
  userId : Option String
  sessionId : Option String
  metadata : String
  convFail : Bool
  kwFail : Nat → Bool

def applySave (st : DBState) (op : SaveOp) : DBState :=
  (saveConversation st op.newId op.now op.userQuery op.aiResponse op.userId
    op.sessionId op.metadata op.convFail op.kwFail).2

/-- A sequence of saves applied in order. -/
def applySaves (st : DBState) (ops : List SaveOp) : DBState := ops.foldl applySave st

/-- Joining an emitted keyword sequence back into text, to re-run the
normalizer on its own output (the spec's `normalize(normalize(x))`). -/
def joinSpace : List String → String
  | [] => ""
  | [k] => k
  | k :: ks => k ++ " " ++ joinSpace ks

/-- No two stored conversations share a fingerprint. -/
def hashesNodup (st : DBState) : Prop :=
  (st.conversations.map Conversation.query_hash).Nodup

/-! ## Shared lemmas -/

theorem generateQueryHash_congr {x y : String}
    (h : jsTrim (jsToLower x) = jsTrim (jsToLower y)) :
    generateQueryHash x = generateQueryHash y := by
  unfold generateQueryHash
  rw [h]

theorem length_flatMap_hexByte (l : List Nat) :
    (l.flatMap hexByte).length = 2 * l.length := by
  induction l with
  | nil => rfl
  | cons a t ih =>
    simp only [List.flatMap_cons, List.length_append, ih, List.length_cons, hexByte,
      List.length_cons, List.length_nil]
    omega

theorem md5Bytes_length (msg : List Nat) : (md5Bytes msg).length = 16 := by
  simp [md5Bytes, wordLE]

theorem generateQueryHash_length (q : String) : (generateQueryHash q).length = 32 := by
  have hmk : ∀ l : List Char, (String.mk l).length = l.length := fun l => rfl
  unfold generateQueryHash md5Hex
  rw [hmk, length_flatMap_hexByte, md5Bytes_length]

/-! ## Claims -/

/-- C8: any two input texts that agree after lower-casing and
whitespace-trimming get the same fingerprint, and every fingerprint is a
32-character hex digest — the digest is a function only of the
lower-cased, trimmed raw text. -/
theorem fingerprint_deterministic (x y : String)
    (h : jsTrim (jsToLower x) = jsTrim (jsToLower y)) :
    generateQueryHash x = generateQueryHash y ∧
    (generateQueryHash x).length = 32 :=
  ⟨generateQueryHash_congr h, generateQueryHash_length x⟩

/-- Witness for C8 at the spec's example pair. -/
theorem fingerprint_deterministic_witness :
    generateQueryHash " Hello World " = generateQueryHash "hello world" ∧
    (generateQueryHash " Hello World ").length = 32 :=
  fingerprint_deterministic " Hello World " "hello world" (by decide)

/-- C9: a save whose query yields zero keywords still commits the
conversation row, appends no keyword rows, and resolves successfully
with the new conversation id. -/
theorem save_with_no_keywords_succeeds (st : DBState) (newId : String) (now : Int)
    (q resp : String) (uid sid : Option String) (md : String) (kwFail : Nat → Bool)
    (h : extractKeywords q = []) :
    (saveConversation st newId now q resp uid sid md false kwFail).1 = Except.ok newId ∧
    (⟨newId, q, resp, generateQueryHash q, uid, sid, md, 1, now⟩ : Conversation) ∈
      (saveConversation st newId now q resp uid sid md false kwFail).2.conversations ∧
    (saveConversation st newId now q resp uid sid md false kwFail).2.keywords =
      st.keywords := by
  refine ⟨rfl, ?_, ?_⟩
  · simp [saveConversation, upsertConversation]
  · simp [saveConversation, upsertConversation, h]

/-- Witness for C9: the query "ab" (a single too-short token) yields zero
keywords. -/
theorem save_with_no_keywords_succeeds_witness :
    (saveConversation emptyDB "id1" 0 "ab" "resp" none none "{}" false
        (fun _ => false)).1 = Except.ok "id1" ∧
    (⟨"id1", "ab", "resp", generateQueryHash "ab", none, none, "{}", 1, 0⟩ : Conversation) ∈
      (saveConversation emptyDB "id1" 0 "ab" "resp" none none "{}" false
        (fun _ => false)).2.conversations ∧
    (saveConversation emptyDB "id1" 0 "ab" "resp" none none "{}" false
        (fun _ => false)).2.keywords = emptyDB.keywords :=
  save_with_no_keywords_succeeds emptyDB "id1" 0 "ab" "resp" none none "{}"
    (fun _ => false) (by decide)

/-- C1: the claim says a failure during keyword insertion rolls the whole
save back, leaving zero rows for that conversation in both tables.  The
code only logs a keyword-insert error and still COMMITs: with the insert
of keyword 0 of "alpha beta" failing, the save resolves successfully,
the conversation row is committed, and only the remaining keyword row
("beta") is present — a conversation is visible without part of its
keywords. -/
theorem save_commits_despite_keyword_failure :
    (saveConversation emptyDB "id1" 0 "alpha beta" "resp" none none "{}" false
        (fun i => decide (i = 0))).1 = Except.ok "id1" ∧
    ((saveConversation emptyDB "id1" 0 "alpha beta" "resp" none none "{}" false
        (fun i => decide (i = 0))).2.conversations.map Conversation.id) = ["id1"] ∧
    (saveConversation emptyDB "id1" 0 "alpha beta" "resp" none none "{}" false
        (fun i => decide (i = 0))).2.keywords =
      [⟨"id1", "beta", 9 / 10⟩] := by
  refine ⟨rfl, rfl, ?_⟩
  with_unfolding_all decide

/-- C2 counterexample: the claim says the k-th keyword is stored with
weight `max(ε, 1 − 0.1·k)`, always inside `(0, 1]`.  There is no ε
clamp: for a query emitting twelve keywords, the keyword at position 10
is stored with weight `0` and the one at position 11 with weight
`−1/10`; `0` is not in `(0, 1]`. -/
theorem stored_weight_outside_unit_interval :
    ((saveConversation emptyDB "id1" 0
        "alpha bravo delta gamma sigma omega kappa lambda epsilon theta victor tango"
        "resp" none none "{}" false (fun _ => false)).2.keywords.map
        KeywordRow.weight)[10]? = some 0 ∧
    ((saveConversation emptyDB "id1" 0
        "alpha bravo delta gamma sigma omega kappa lambda epsilon theta victor tango"
        "resp" none none "{}" false (fun _ => false)).2.keywords.map
        KeywordRow.weight)[11]? = some ((-1 : ℚ) / 10) ∧
    ¬(0 < (0 : ℚ) ∧ (0 : ℚ) ≤ 1) := by
  refine ⟨by with_unfolding_all decide, by with_unfolding_all decide, by norm_num⟩

/-- The conversation used by the C3 counterexample: 100 days old,
usage_count 2. -/
def purgeCexConv : Conversation := ⟨"c3", "q", "r", "h3", none, none, "{}", 2, -100⟩

def purgeCexDB : DBState := ⟨[purgeCexConv], [], []⟩

/-- C3 counterexample: the claim says the purge threshold is
caller-supplied (`Purge(maxAgeDays, minUsageThreshold)`).  The source's
`cleanupOldRecords` takes only the age and hard-codes `usage_count < 2`:
a 100-day-old conversation with usage_count 2 would have to be removed
by `Purge(30, 3)` under the claimed semantics, but the code removes
nothing and keeps the state unchanged. -/
theorem cleanup_ignores_caller_threshold :
    (cleanupOldRecords purgeCexDB 0 30).1 = 0 ∧
    (cleanupOldRecords purgeCexDB 0 30).2 = purgeCexDB ∧
    (purgeClaim purgeCexDB 0 30 3).1 = 1 := by
  decide

/-- C3 amended: `cleanupOldRecords(daysOld)` (no threshold parameter;
the usage threshold is fixed at 2) deletes exactly the conversations
that are both older than the cutoff and have usage_count < 2, returning
the removed count; a conversation with usage_count ≥ 2 is retained
regardless of age, and the other tables are untouched. -/
theorem cleanup_deletes_exactly_stale_unused (st : DBState) (now : Int)
    (daysOld : Nat) :
    (cleanupOldRecords st now daysOld).1 +
      (cleanupOldRecords st now daysOld).2.conversations.length =
      st.conversations.length ∧
    (∀ c : Conversation,
      c ∈ (cleanupOldRecords st now daysOld).2.conversations ↔
        c ∈ st.conversations ∧ (now - daysOld ≤ c.created_at ∨ 2 ≤ c.usage_count)) ∧
    (cleanupOldRecords st now daysOld).2.keywords = st.keywords ∧
    (cleanupOldRecords st now daysOld).2.usage_stats = st.usage_stats := by
  refine ⟨?_, ?_, rfl, rfl⟩
  · simp only [cleanupOldRecords]
    exact (List.length_eq_length_filter_add
      (fun c : Conversation =>
        decide (c.created_at < now - daysOld) && decide (c.usage_count < 2))).symm
  · intro c
    simp [cleanupOldRecords, List.mem_filter, not_and_or, not_lt]

/-- C2 amended: with no insert failures, a save appends one keyword row per
emitted keyword; the k-th appended row holds the k-th keyword with weight
exactly `1 − 0.1·k` — always at most 1, and positive precisely when
`k < 10` (there is no ε clamp). -/
theorem saved_keyword_weights (st : DBState) (newId : String) (now : Int)
    (q resp : String) (uid sid : Option String) (md : String)
    (k : Nat) (hk : k < (extractKeywords q).length) :
    ((saveConversation st newId now q resp uid sid md false
        (fun _ => false)).2.keywords)[st.keywords.length + k]? =
      some ⟨newId, (extractKeywords q).get ⟨k, hk⟩, 1 - (k : ℚ) * (1 / 10)⟩ ∧
    1 - (k : ℚ) * (1 / 10) ≤ 1 ∧
    (0 < 1 - (k : ℚ) * (1 / 10) ↔ k < 10) := by
  refine ⟨?_, ?_, ?_⟩
  · have h1 : (saveConversation st newId now q resp uid sid md false
        (fun _ => false)).2.keywords
        = st.keywords ++ (extractKeywords q).enum.map
            (fun p => (⟨newId, p.2, 1 - (p.1 : ℚ) * (1 / 10)⟩ : KeywordRow)) := by
      simp only [saveConversation, upsertConversation]
      simp only [Bool.false_eq_true, if_false]
      congr 1
      rw [← List.filterMap_eq_map]
      congr 1
    rw [h1, List.getElem?_append_right (Nat.le_add_right _ _)]
    simp [List.getElem?_map, List.getElem?_enum, List.getElem?_eq_getElem hk]
  · have h0 : (0 : ℚ) ≤ (k : ℚ) * (1 / 10) := by positivity
    linarith
  · rw [sub_pos, show ((k : ℚ) * (1 / 10)) = (k : ℚ) / 10 by ring,
      div_lt_one (by norm_num : (0 : ℚ) < 10)]
    exact_mod_cast Iff.rfl

/-- Witness for C2's amended theorem at k = 10 of a twelve-keyword query. -/
theorem saved_keyword_weights_witness :
    ((saveConversation emptyDB "id1" 0
        "alpha bravo delta gamma sigma omega kappa lambda epsilon theta victor tango"
        "resp" none none "{}" false
        (fun _ => false)).2.keywords)[emptyDB.keywords.length + 10]? =
      some ⟨"id1",
        (extractKeywords
          "alpha bravo delta gamma sigma omega kappa lambda epsilon theta victor tango").get
            ⟨10, by decide⟩,
        1 - (10 : ℚ) * (1 / 10)⟩ ∧
    1 - (10 : ℚ) * (1 / 10) ≤ 1 ∧
    (0 < 1 - (10 : ℚ) * (1 / 10) ↔ 10 < 10) :=
  saved_keyword_weights emptyDB "id1" 0
    "alpha bravo delta gamma sigma omega kappa lambda epsilon theta victor tango"
    "resp" none none "{}" 10 (by decide)

/-- The pre-existing conversation used by the C10 and C6 witnesses: its
fingerprint is that of the query "q". -/
def priorConv : Conversation :=
  ⟨"old", "q", "r", generateQueryHash "q", none, none, "{}", 3, 0⟩

def priorDB : DBState := ⟨[priorConv], [], []⟩

/-- C10: a save always resolves with the freshly generated id (`uuid.v4()`
is modelled by the `newId` parameter, fresh by hypothesis); on a
fingerprint collision the prior record's id disappears from the store —
conversation identity is not stable across re-saves. -/
theorem save_returns_fresh_id (st : DBState) (newId : String) (now : Int)
    (q resp : String) (uid sid : Option String) (md : String) (kwFail : Nat → Bool)
    (prior : Conversation) (hp : prior ∈ st.conversations)
    (hh : prior.query_hash = generateQueryHash q)
    (hnd : (st.conversations.map Conversation.id).Nodup)
    (hfresh : ∀ c ∈ st.conversations, c.id ≠ newId) :
    (saveConversation st newId now q resp uid sid md false kwFail).1 = Except.ok newId ∧
    newId ≠ prior.id ∧
    prior.id ∉
      ((saveConversation st newId now q resp uid sid md false kwFail).2.conversations.map
        Conversation.id) := by
  refine ⟨rfl, fun e => hfresh prior hp e.symm, ?_⟩
  intro hmem
  simp only [saveConversation, upsertConversation, Bool.false_eq_true, if_false,
    List.map_append, List.mem_append, List.mem_map, List.mem_filter,
    List.map_cons, List.map_nil, List.mem_singleton] at hmem
  rcases hmem with ⟨d, ⟨hd_mem, hd_keep⟩, hd_id⟩ | h_new
  · have hdc : d = prior := List.inj_on_of_nodup_map hnd hd_mem hp hd_id
    subst hdc
    simp only [Bool.not_eq_true', Bool.or_eq_false_iff, beq_eq_false_iff_ne] at hd_keep
    exact hd_keep.2 hh
  · exact hfresh prior hp h_new

/-- Witness for C10: saving "q" over a store already holding a
conversation for "q". -/
theorem save_returns_fresh_id_witness :
    (saveConversation priorDB "new" 5 "q" "r2" none none "{}" false
        (fun _ => false)).1 = Except.ok "new" ∧
    "new" ≠ priorConv.id ∧
    priorConv.id ∉
      ((saveConversation priorDB "new" 5 "q" "r2" none none "{}" false
          (fun _ => false)).2.conversations.map Conversation.id) :=
  save_returns_fresh_id priorDB "new" 5 "q" "r2" none none "{}" (fun _ => false)
    priorConv (by simp [priorDB]) rfl (by simp [priorDB, priorConv])
    (by decide)

theorem hashesNodup_upsert {st : DBState} (h : hashesNodup st) (c : Conversation) :
    hashesNodup (upsertConversation st c) := by
  unfold hashesNodup upsertConversation at *
  simp only [List.map_append, List.map_cons, List.map_nil, List.nodup_append,
    List.nodup_singleton, true_and]
  refine ⟨((List.filter_sublist st.conversations).map Conversation.query_hash).nodup h, ?_⟩
  intro x hx hx1
  simp only [List.mem_singleton] at hx1
  subst hx1
  obtain ⟨d, hd_mem, hd_eq⟩ := List.mem_map.mp hx
  have := (List.mem_filter.mp hd_mem).2
  simp only [Bool.not_eq_true', Bool.or_eq_false_iff, beq_eq_false_iff_ne] at this
  exact this.2 hd_eq

theorem hashesNodup_applySave {st : DBState} (h : hashesNodup st) (op : SaveOp) :
    hashesNodup (applySave st op) := by
  unfold applySave saveConversation
  cases hc : op.convFail
  · simpa using hashesNodup_upsert h _
  · simpa using h

/-- C6: after any sequence of saves starting from the empty store, no two
stored conversations share a fingerprint; a save whose fingerprint
collides with an existing conversation removes that prior record
(upsert), and afterwards every row carrying the saved fingerprint has
usage_count reset to the base value 1. -/
theorem fingerprint_unique_upsert_resets_usage :
    (∀ ops : List SaveOp, hashesNodup (applySaves emptyDB ops)) ∧
    (∀ (st : DBState) (newId : String) (now : Int) (q resp : String)
        (uid sid : Option String) (md : String) (kwFail : Nat → Bool)
        (prior : Conversation), prior ∈ st.conversations →
        prior.query_hash = generateQueryHash q → prior.id ≠ newId →
        prior ∉
          (saveConversation st newId now q resp uid sid md false kwFail).2.conversations) ∧
    (∀ (st : DBState) (newId : String) (now : Int) (q resp : String)
        (uid sid : Option String) (md : String) (kwFail : Nat → Bool)
        (c : Conversation),
        c ∈ (saveConversation st newId now q resp uid sid md false kwFail).2.conversations →
        c.query_hash = generateQueryHash q → c.usage_count = 1) := by
  refine ⟨?_, ?_, ?_⟩
  · intro ops
    have main : ∀ (l : List SaveOp) (st : DBState), hashesNodup st →
        hashesNodup (applySaves st l) := by
      intro l
      induction l with
      | nil => intro st h; exact h
      | cons op rest ih =>
        intro st h
        exact ih _ (hashesNodup_applySave h op)
    exact main ops emptyDB (by simp [hashesNodup, emptyDB])
  · intro st newId now q resp uid sid md kwFail prior hp hh hid hmem
    simp only [saveConversation, upsertConversation, Bool.false_eq_true, if_false,
      List.mem_append, List.mem_filter, List.mem_singleton] at hmem
    rcases hmem with ⟨_, hkeep⟩ | hnew
    · simp only [Bool.not_eq_true', Bool.or_eq_false_iff, beq_eq_false_iff_ne] at hkeep
      exact hkeep.2 hh
    · exact hid (congrArg Conversation.id hnew)
  · intro st newId now q resp uid sid md kwFail c hmem hh
    simp only [saveConversation, upsertConversation, Bool.false_eq_true, if_false,
      List.mem_append, List.mem_filter, List.mem_singleton] at hmem
    rcases hmem with ⟨_, hkeep⟩ | hnew
    · simp only [Bool.not_eq_true', Bool.or_eq_false_iff, beq_eq_false_iff_ne] at hkeep
      exact absurd hh hkeep.2
    · rw [hnew]

/-- Witness for C6: one save into the empty store keeps fingerprints
unique; saving "q" over `priorDB` evicts the prior record, and the row
holding the fingerprint of "q" afterwards has usage_count 1. -/
theorem fingerprint_unique_upsert_resets_usage_witness :
    hashesNodup (applySaves emptyDB
      [⟨"idA", 0, "ab", "r", none, none, "{}", false, fun _ => false⟩]) ∧
    priorConv ∉
      (saveConversation priorDB "new" 5 "q" "r2" none none "{}" false
        (fun _ => false)).2.conversations ∧
    (⟨"new", "q", "r2", generateQueryHash "q", none, none, "{}", 1, 5⟩ :
        Conversation).usage_count = 1 := by
  have h := fingerprint_unique_upsert_resets_usage
  refine ⟨h.1 [⟨"idA", 0, "ab", "r", none, none, "{}", false, fun _ => false⟩],
    h.2.1 priorDB "new" 5 "q" "r2" none none "{}" (fun _ => false) priorConv
      (by simp [priorDB]) rfl (by decide),
    h.2.2 priorDB "new" 5 "q" "r2" none none "{}" (fun _ => false)
      ⟨"new", "q", "r2", generateQueryHash "q", none, none, "{}", 1, 5⟩ ?_ rfl⟩
  simp [saveConversation, upsertConversation, priorDB]

/-- C5: whenever the stored conversation `c` carries the query's
fingerprint, `findSimilarConversations` returns exactly `[c]` with
similarity 1 and matchType "exact", for every threshold and every
limit — the keyword search is short-circuited. -/
theorem exact_match_short_circuit (st : DBState) (q : String) (limit : Nat) (τ : ℚ)
    (c : Conversation) (hc : c ∈ st.conversations)
    (hh : c.query_hash = generateQueryHash q)
    (hnd : hashesNodup st) :
    (findSimilarConversations st q limit τ).1 = [⟨c, 1, "exact"⟩] := by
  have hex : (st.conversations.find? (fun x => x.query_hash == generateQueryHash q)).isSome := by
    rw [List.find?_isSome]
    exact ⟨c, hc, by simp [hh]⟩
  obtain ⟨d, hd⟩ := Option.isSome_iff_exists.mp hex
  have hdmem := List.mem_of_find?_eq_some hd
  have hdp : d.query_hash = generateQueryHash q := by
    have := List.find?_some hd
    simpa using this
  have hdc : d = c :=
    List.inj_on_of_nodup_map hnd hdmem hc (hdp.trans hh.symm)
  simp only [findSimilarConversations]
  rw [hd, hdc]

theorem toList_append (a b : String) : (a ++ b).toList = a.toList ++ b.toList :=
  String.data_append a b

theorem jsToLower_append (a b : String) :
    jsToLower (a ++ b) = jsToLower a ++ jsToLower b := by
  apply String.ext
  show (jsToLower (a ++ b)).data = _
  simp only [jsToLower]
  show List.map lowerChar (a ++ b).data = _
  rw [show (a ++ b).data = a.data ++ b.data from String.data_append a b]
  simp [String.data_append]

/-- Consuming a run of word characters just extends the accumulator. -/
theorem tokenizeAux_words (t : List Char) (hw : ∀ c ∈ t, wordChar c = true) :
    ∀ rest acc, tokenizeAux (t ++ rest) acc = tokenizeAux rest (t.reverse ++ acc) := by
  induction t with
  | nil => intro rest acc; simp
  | cons c t ih =>
    intro rest acc
    have hc : wordChar c = true := hw c (List.mem_cons_self c t)
    have ht : ∀ x ∈ t, wordChar x = true := fun x hx => hw x (List.mem_cons_of_mem c hx)
    show tokenizeAux (c :: (t ++ rest)) acc = _
    rw [show tokenizeAux (c :: (t ++ rest)) acc
        = tokenizeAux (t ++ rest) (c :: acc) from by simp [tokenizeAux, hc]]
    rw [ih ht rest (c :: acc)]
    simp

/-- Tokenizing a space-joined list of nonempty all-word-character tokens
recovers exactly those tokens. -/
theorem tokenizeChars_joinSpace :
    ∀ ks : List String,
      (∀ k ∈ ks, k.toList ≠ [] ∧ ∀ c ∈ k.toList, wordChar c = true) →
      tokenizeChars (joinSpace ks).toList = ks.map String.toList
  | [], _ => rfl
  | [k], h => by
    obtain ⟨hne, hw⟩ := h k (List.mem_singleton_self k)
    show tokenizeAux (joinSpace [k]).toList [] = [k.toList]
    have : (joinSpace [k]).toList = k.toList ++ [] := by simp [joinSpace]
    rw [this, tokenizeAux_words k.toList hw [] []]
    simp only [tokenizeAux, List.append_nil, List.isEmpty_eq_true, List.reverse_eq_nil_iff]
    rw [if_neg hne]
    simp
  | k :: k2 :: ks, h => by
    obtain ⟨hne, hw⟩ := h k (List.mem_cons_self k (k2 :: ks))
    have hrest : ∀ x ∈ k2 :: ks, x.toList ≠ [] ∧ ∀ c ∈ x.toList, wordChar c = true :=
      fun x hx => h x (List.mem_cons_of_mem k hx)
    have hj : (joinSpace (k :: k2 :: ks)).toList =
        k.toList ++ (' ' :: (joinSpace (k2 :: ks)).toList) := by
      show (k ++ " " ++ joinSpace (k2 :: ks)).toList = _
      rw [toList_append, toList_append]
      simp
    show tokenizeAux (joinSpace (k :: k2 :: ks)).toList [] = k.toList :: _
    rw [hj, tokenizeAux_words k.toList hw _ []]
    simp only [tokenizeAux, wordChar, List.append_nil]
    rw [if_neg (by decide), if_neg (by simpa [List.isEmpty_eq_true] using hne)]
    rw [List.reverse_reverse]
    exact congrArg _ (tokenizeChars_joinSpace (k2 :: ks) hrest)

/-- Re-running `extractKeywords` on a space-join of tokens that are
lowercase stemmer fixed points (word characters only, longer than two,
outside the stop set) returns exactly those tokens. -/
theorem extract_clean (ks : List String)
    (h : ∀ k ∈ ks,
      (∀ c ∈ k.toList, wordChar c = true) ∧ jsToLower k = k ∧
      2 < k.length ∧ stopWords.contains k = false ∧ porterStem k = k) :
    extractKeywords (joinSpace ks) = ks := by
  have hlower : jsToLower (joinSpace ks) = joinSpace ks := by
    induction ks with
    | nil => rfl
    | cons k rest ih =>
      cases rest with
      | nil => exact (h k (List.mem_singleton_self k)).2.1
      | cons k2 ks2 =>
        have hk := (h k (List.mem_cons_self k (k2 :: ks2))).2.1
        have ihr := ih (fun x hx => h x (List.mem_cons_of_mem k hx))
        show jsToLower (k ++ " " ++ joinSpace (k2 :: ks2)) = _
        rw [jsToLower_append, jsToLower_append, hk, ihr]
        rfl
  have hne : ∀ k ∈ ks, k.toList ≠ [] ∧ ∀ c ∈ k.toList, wordChar c = true := by
    intro k hk
    obtain ⟨hw, _, hlen, _, _⟩ := h k hk
    refine ⟨?_, hw⟩
    have hlist : k.toList.length = k.length := rfl
    intro hnil
    have h0 : k.length = 0 := by rw [← hlist, hnil]; rfl
    omega
  have htok : tokenize (joinSpace ks) = ks := by
    unfold tokenize
    rw [tokenizeChars_joinSpace ks hne]
    rw [List.map_map]
    have : ∀ k ∈ ks, (String.mk ∘ String.toList) k = id k := fun k _ => rfl
    rw [List.map_congr_left this, List.map_id]
  show ((((tokenize (jsToLower (joinSpace ks))).filter
      (fun word => decide (2 < word.length) && !(stopWords.contains word))).map
      porterStem).filter (fun word => decide (2 < word.length))) = ks
  rw [hlower, htok]
  have hf1 : (ks.filter
      (fun word => decide (2 < word.length) && !(stopWords.contains word))) = ks := by
    rw [List.filter_eq_self]
    intro k hk
    obtain ⟨_, _, hlen, hstop, _⟩ := h k hk
    simp only [Bool.and_eq_true, decide_eq_true_eq, Bool.not_eq_true', hstop]
    exact ⟨hlen, trivial⟩
  rw [hf1]
  have hstem : ks.map porterStem = ks := by
    have : ∀ k ∈ ks, porterStem k = id k := fun k hk => (h k hk).2.2.2.2
    rw [List.map_congr_left this, List.map_id]
  rw [hstem, List.filter_eq_self]
  intro k hk
  obtain ⟨_, _, hlen, _, _⟩ := h k hk
  simp [hlen]

/-- C7 counterexample: the Porter stemmer is not idempotent, so
re-tokenizing the normalized keyword output changes it:
"university" normalizes to the single keyword "univers", and re-running
the normalizer on that output stems it further to "univ". -/
theorem reextraction_changes_keywords :
    extractKeywords "university" = ["univers"] ∧
    extractKeywords (joinSpace (extractKeywords "university")) = ["univ"] ∧
    (["univ"] : List String) ≠ ["univers"] := by
  exact ⟨by decide, by decide, by decide⟩

/-- C7 amended: re-tokenizing the emitted keyword sequence yields the
same sequence provided every emitted keyword is a fixed point of the
stemmer (and is a lowercase all-word-character token outside the stop
set); in general the Porter stemmer is not idempotent, so the claimed
equation can fail. -/
theorem extract_idempotent_on_stem_fixed (x : String)
    (h : ∀ k ∈ extractKeywords x,
      (∀ c ∈ k.toList, wordChar c = true) ∧ jsToLower k = k ∧
      stopWords.contains k = false ∧ porterStem k = k) :
    extractKeywords (joinSpace (extractKeywords x)) = extractKeywords x := by
  apply extract_clean
  intro k hk
  obtain ⟨hw, hlow, hstop, hstem⟩ := h k hk
  have hk2 : k ∈ (((tokenize (jsToLower x)).filter
      (fun word => decide (2 < word.length) && !(stopWords.contains word))).map
      porterStem).filter (fun word => decide (2 < word.length)) := hk
  have hlen : 2 < k.length := by
    have := List.of_mem_filter hk2
    simpa using this
  exact ⟨hw, hlow, hlen, hstop, hstem⟩

/-- Witness for C7's amended theorem: both keywords of "hello world" are
stemmer fixed points. -/
theorem extract_idempotent_on_stem_fixed_witness :
    extractKeywords (joinSpace (extractKeywords "hello world")) =
      extractKeywords "hello world" :=
  extract_idempotent_on_stem_fixed "hello world" (by decide)

/-- The stored conversation used by the C5 witness. -/
def rustConv : Conversation :=
  ⟨"c5", "what is rust", "a language", generateQueryHash "what is rust",
    none, none, "{}", 1, 0⟩

def rustDB : DBState := ⟨[rustConv], [], []⟩

/-- Witness for C5 at the spec's example: a differently-cased query with
threshold 0.9. -/
theorem exact_match_short_circuit_witness :
    (findSimilarConversations rustDB "What Is Rust" 5 (9 / 10)).1 =
      [⟨rustConv, 1, "exact"⟩] :=
  exact_match_short_circuit rustDB "What Is Rust" 5 (9 / 10) rustConv
    (by simp [rustDB])
    ((generateQueryHash_congr
      (by decide : jsTrim (jsToLower "What Is Rust") = jsTrim (jsToLower "what is rust"))).symm)
    (by simp [hashesNodup, rustDB])

/-- The store used by the C4 counterexample: one conversation with a
single keyword row ("test", weight 1) and a fingerprint matching no
query. -/
def dupConv : Conversation := ⟨"c1", "other", "resp", "h1", none, none, "{}", 1, 0⟩

def dupDB : DBState := ⟨[dupConv], [⟨"c1", "test", 1⟩], []⟩

set_option maxRecDepth 100000 in
/-- C4 counterexample: the claim divides the matched weight by the size
of the query keyword SET.  The code divides by the length of the
extracted keyword LIST, duplicates included: for the query "test test"
(keyword list ["test", "test"], set {"test"}), conversation c1 matches
with total weight 1, so the claimed score is 1/1 = 1 ≥ 0.8 and c1 should
be returned — but the code computes 1/2 < 0.8 and returns nothing. -/
theorem duplicate_keywords_shrink_similarity :
    extractKeywords "test test" = ["test", "test"] ∧
    (extractKeywords "test test").dedup = ["test"] ∧
    hasMatch dupDB (extractKeywords "test test") "c1" = true ∧
    matchingWeight dupDB (extractKeywords "test test") "c1" /
      (((extractKeywords "test test").dedup.length : ℚ)) = 1 ∧
    ((4 : ℚ) / 5) ≤ 1 ∧
    (findSimilarConversations dupDB "test test" 5 (4 / 5)).1 = [] := by
  refine ⟨by decide, by decide, by decide, by with_unfolding_all decide, by norm_num,
    by with_unfolding_all decide⟩

/-- In a list sorted under `r`, everything kept by `take n` is related to
any element that `take n` drops. -/
theorem rel_of_mem_take_of_not_mem_take {α : Type} {r : α → α → Prop} {l : List α}
    (hs : List.Pairwise r l) {x : α} (n : Nat) (hx : x ∈ l) (hnx : x ∉ l.take n) :
    ∀ y ∈ l.take n, r y x := by
  have hx' : x ∈ l.drop n := by
    have hsplit : x ∈ l.take n ++ l.drop n := by
      rw [List.take_append_drop]
      exact hx
    rcases List.mem_append.mp hsplit with h | h
    · exact absurd h hnx
    · exact h
  have hp : List.Pairwise r (l.take n ++ l.drop n) := by
    rw [List.take_append_drop]
    exact hs
  rw [List.pairwise_append] at hp
  intro y hy
  exact hp.2.2 y hy x hx'

/-- C4 amended: in the similar-match branch (no exact fingerprint match,
at least one query keyword), with `m` being the LENGTH of the extracted
keyword list (duplicates included, not the set size): every returned row
is a distinct stored conversation with at least one matching keyword
entry and similarity `(Σ matching weights) / m ≥ τ`, tagged "similar";
rows are ordered by similarity descending with ties broken by
usage_count descending; at most `limit` rows are returned, and every
qualifying conversation is returned unless the result is full at
`limit` rows, in which case each returned row ranks at least as high
(similarity, then usage_count) as the omitted conversation — the result
is a top-`limit` prefix of the ranking. -/
theorem similar_search_characterization (st : DBState) (query : String)
    (limit : Nat) (τ : ℚ)
    (hnoexact : ∀ c ∈ st.conversations, c.query_hash ≠ generateQueryHash query)
    (hne : extractKeywords query ≠ [])
    (hnd : (st.conversations.map Conversation.id).Nodup) :
    (∀ r ∈ (findSimilarConversations st query limit τ).1,
      r.conv ∈ st.conversations ∧
      hasMatch st (extractKeywords query) r.conv.id = true ∧
      r.similarity = matchingWeight st (extractKeywords query) r.conv.id /
        ((extractKeywords query).length : ℚ) ∧
      τ ≤ r.similarity ∧ r.matchType = "similar") ∧
    (findSimilarConversations st query limit τ).1.length ≤ limit ∧
    List.Sorted rankRel (findSimilarConversations st query limit τ).1 ∧
    ((findSimilarConversations st query limit τ).1.map (fun r => r.conv.id)).Nodup ∧
    (∀ c ∈ st.conversations,
      hasMatch st (extractKeywords query) c.id = true →
      τ ≤ matchingWeight st (extractKeywords query) c.id /
        ((extractKeywords query).length : ℚ) →
      (∃ r ∈ (findSimilarConversations st query limit τ).1, r.conv = c) ∨
        ((findSimilarConversations st query limit τ).1.length = limit ∧
          ∀ r ∈ (findSimilarConversations st query limit τ).1,
            rankRel r ⟨c, matchingWeight st (extractKeywords query) c.id /
              ((extractKeywords query).length : ℚ), "similar"⟩)) := by
  have hfind : st.conversations.find?
      (fun c => c.query_hash == generateQueryHash query) = none := by
    rw [List.find?_eq_none]
    intro c hc
    simpa using hnoexact c hc
  have hlen0 : ¬((extractKeywords query).length = 0) := by
    simpa [List.length_eq_zero] using hne
  have hres : (findSimilarConversations st query limit τ).1 =
      (List.insertionSort rankRel
        (((st.conversations.filter
            (fun c => hasMatch st (extractKeywords query) c.id)).map
          (fun c => (⟨c,
            matchingWeight st (extractKeywords query) c.id /
              ((extractKeywords query).length : ℚ), "similar"⟩ : FindRow))).filter
          (fun r => decide (τ ≤ r.similarity)))).take limit := by
    simp only [findSimilarConversations, hfind]
    rw [if_neg hlen0]
  rw [hres]
  set rows := ((st.conversations.filter
      (fun c => hasMatch st (extractKeywords query) c.id)).map
    (fun c => (⟨c,
      matchingWeight st (extractKeywords query) c.id /
        ((extractKeywords query).length : ℚ), "similar"⟩ : FindRow))) with hrows
  set kept := rows.filter (fun r => decide (τ ≤ r.similarity)) with hkept
  refine ⟨?_, List.length_take_le _ _, ?_, ?_, ?_⟩
  · intro r hr
    have hr1 : r ∈ List.insertionSort rankRel kept := List.mem_of_mem_take hr
    have hr2 : r ∈ kept := (List.perm_insertionSort rankRel kept).mem_iff.mp hr1
    have hr3 := List.mem_filter.mp hr2
    obtain ⟨c, hcmem, hcr⟩ := List.mem_map.mp hr3.1
    have hcf := List.mem_filter.mp hcmem
    subst hcr
    exact ⟨hcf.1, hcf.2, rfl, by simpa using hr3.2, rfl⟩
  · exact List.Pairwise.sublist (List.take_sublist _ _)
      (List.sorted_insertionSort rankRel kept)
  · have h1 : (rows.map (fun r => r.conv.id)).Nodup := by
      rw [hrows, List.map_map]
      have : ((fun r : FindRow => r.conv.id) ∘
          (fun c => (⟨c, matchingWeight st (extractKeywords query) c.id /
            ((extractKeywords query).length : ℚ), "similar"⟩ : FindRow))) =
          Conversation.id := rfl
      rw [this]
      exact ((List.filter_sublist st.conversations).map Conversation.id).nodup hnd
    have h3 : ((List.insertionSort rankRel kept).map (fun r => r.conv.id)).Nodup := by
      refine ((List.perm_insertionSort rankRel kept).map
        (fun r => r.conv.id)).nodup_iff.mpr ?_
      exact ((List.filter_sublist rows).map _).nodup h1
    exact (((List.take_sublist _ _).map _).nodup h3)
  · intro c hc hm hτ
    have hcrow : (⟨c, matchingWeight st (extractKeywords query) c.id /
        ((extractKeywords query).length : ℚ), "similar"⟩ : FindRow) ∈ rows := by
      rw [hrows]
      exact List.mem_map.mpr ⟨c, List.mem_filter.mpr ⟨hc, hm⟩, rfl⟩
    have hckept : (⟨c, matchingWeight st (extractKeywords query) c.id /
        ((extractKeywords query).length : ℚ), "similar"⟩ : FindRow) ∈ kept :=
      List.mem_filter.mpr ⟨hcrow, by simpa using hτ⟩
    have hcsorted : (⟨c, matchingWeight st (extractKeywords query) c.id /
        ((extractKeywords query).length : ℚ), "similar"⟩ : FindRow) ∈
        List.insertionSort rankRel kept :=
      (List.perm_insertionSort rankRel kept).mem_iff.mpr hckept
    by_cases hmem : (⟨c, matchingWeight st (extractKeywords query) c.id /
        ((extractKeywords query).length : ℚ), "similar"⟩ : FindRow) ∈
        (List.insertionSort rankRel kept).take limit
    · exact Or.inl ⟨⟨c, matchingWeight st (extractKeywords query) c.id /
        ((extractKeywords query).length : ℚ), "similar"⟩, hmem, rfl⟩
    · right
      have hlt : limit < (List.insertionSort rankRel kept).length := by
        by_contra hle
        rw [Nat.not_lt] at hle
        rw [List.take_of_length_le hle] at hmem
        exact hmem hcsorted
      refine ⟨?_, ?_⟩
      · rw [List.length_take]
        exact Nat.min_eq_left (Nat.le_of_lt hlt)
      · exact rel_of_mem_take_of_not_mem_take
          (List.sorted_insertionSort rankRel kept) limit hcsorted hmem

/-- The store used by the C4 witness: two conversations sharing the
keyword "alpha" with equal weights but different usage counts. -/
def simDB : DBState :=
  ⟨[⟨"a1", "qa", "ra", "ha", none, none, "{}", 3, 0⟩,
    ⟨"a2", "qb", "rb", "hb", none, none, "{}", 7, 0⟩],
   [⟨"a1", "alpha", 1⟩, ⟨"a2", "alpha", 1⟩], []⟩

set_option maxRecDepth 100000 in
/-- Witness for C4's amended theorem on a two-candidate store. -/
theorem similar_search_characterization_witness :
    (∀ r ∈ (findSimilarConversations simDB "alpha" 5 (1 / 2)).1,
      r.conv ∈ simDB.conversations ∧
      hasMatch simDB (extractKeywords "alpha") r.conv.id = true ∧
      r.similarity = matchingWeight simDB (extractKeywords "alpha") r.conv.id /
        ((extractKeywords "alpha").length : ℚ) ∧
      (1 : ℚ) / 2 ≤ r.similarity ∧ r.matchType = "similar") ∧
    (findSimilarConversations simDB "alpha" 5 (1 / 2)).1.length ≤ 5 ∧
    List.Sorted rankRel (findSimilarConversations simDB "alpha" 5 (1 / 2)).1 ∧
    ((findSimilarConversations simDB "alpha" 5 (1 / 2)).1.map
      (fun r => r.conv.id)).Nodup ∧
    (∀ c ∈ simDB.conversations,
      hasMatch simDB (extractKeywords "alpha") c.id = true →
      (1 : ℚ) / 2 ≤ matchingWeight simDB (extractKeywords "alpha") c.id /
        ((extractKeywords "alpha").length : ℚ) →
      (∃ r ∈ (findSimilarConversations simDB "alpha" 5 (1 / 2)).1, r.conv = c) ∨
        ((findSimilarConversations simDB "alpha" 5 (1 / 2)).1.length = 5 ∧
          ∀ r ∈ (findSimilarConversations simDB "alpha" 5 (1 / 2)).1,
            rankRel r ⟨c, matchingWeight simDB (extractKeywords "alpha") c.id /
              ((extractKeywords "alpha").length : ℚ), "similar"⟩)) :=
  similar_search_characterization simDB "alpha" 5 (1 / 2)
    (by with_unfolding_all decide) (by decide) (by decide)

end ElectroBot
